import Mathlib

/-!
Verification of the enrichment core of `goenrich` (`goenrich/enrich.py`):
background propagation over an ontology DAG (`set_background`), per-category
hypergeometric testing (`calculate_pvalues`) and multiple-testing correction
(`multiple_testing_correction`).

Modelling conventions.
* Node identifiers and entry identifiers are natural numbers; the background
  table is a list of `(entry_id, category_id)` rows.
* Per-node attribute dictionaries become an explicit `NodeState` record with
  `Option` fields: `none` models an absent dictionary key.
* The three Python functions mutate the graph in place and may raise; each is
  embedded as a state transformer returning the mutated state together with
  `Option String`, where `some e` records the exception raised at the point
  the function aborted (attribute mutations made before the raise persist,
  as in Python).
* `scipy.stats.hypergeom.sf` and real arithmetic are modelled exactly over
  `ℚ`: `sf k` is the survival probability `P(X > k)` of the hypergeometric
  distribution, which is what scipy computes.
* `networkx.simple_paths.all_simple_paths G s t` is modelled, on the DAGs the
  program operates on, as the set of duplicate-free edge-chains from `s` to
  `t` with at least two vertices (networkx yields no path from a node to
  itself in an acyclic graph, so annotations sitting directly on a root are
  dropped).
-/

/-- Ontology graph: node list, child-to-parent edge list, per-node namespace
identifier (`G.node[v]['namespace']`) and per-namespace root
(`G.graph['roots']`, `none` when the namespace has no configured root). -/
structure Graph where
  nodes : List ℕ
  edges : List (ℕ × ℕ)
  nspace : ℕ → ℕ
  roots : ℕ → Option ℕ

/-- Per-node attribute dictionary. `background` and `M` are written by
`set_background`; the remaining fields are the ephemeral per-query fields of
`calculate_pvalues` and `multiple_testing_correction`. -/
structure NodeState where
  background : Option (Finset ℕ)
  M : Option ℕ
  query : Option (Finset ℕ)
  n : Option ℕ
  N : Option ℕ
  hits : Option (Finset ℕ)
  x : Option ℕ
  p : Option ℚ
  q : Option ℚ
  significant : Option Bool
  deriving DecidableEq

/-- A node with no attributes set. -/
def blankNode : NodeState :=
  { background := none
    M := none
    query := none
    n := none
    N := none
    hits := none
    x := none
    p := none
    q := none
    significant := none }

/-- Graph-level metadata written by `multiple_testing_correction`
(`G.graph.update({'multiple-testing-correction': method, 'alpha': alpha})`). -/
structure GraphMeta where
  correctionMethod : Option String
  alpha : Option ℚ
  deriving DecidableEq

/-- The edge relation of the graph. -/
def edgeRel (G : Graph) (a b : ℕ) : Prop := (a, b) ∈ G.edges

instance (G : Graph) : DecidableRel (edgeRel G) := fun a b =>
  inferInstanceAs (Decidable ((a, b) ∈ G.edges))

/-- Reachability along directed edges. -/
def reach (G : Graph) : ℕ → ℕ → Prop := Relation.ReflTransGen (edgeRel G)

/-- The graph has no directed cycle. -/
def Acyclic (G : Graph) : Prop := ∀ a b, edgeRel G a b → reach G b a → False

/-- Every edge endpoint is a node of the graph. -/
def WF (G : Graph) : Prop := ∀ e ∈ G.edges, e.1 ∈ G.nodes ∧ e.2 ∈ G.nodes

/-- A simple path from `s` to `t`: at least two vertices, consecutive
vertices joined by edges, no repeated vertex.  This is what
`networkx.simple_paths.all_simple_paths` yields on a DAG. -/
def IsSimplePath (G : Graph) (s t : ℕ) (pa : List ℕ) : Prop :=
  2 ≤ pa.length ∧ pa.head? = some s ∧ pa.getLast? = some t ∧
    List.Chain' (edgeRel G) pa ∧ pa.Nodup

/-- Executable edge-chain check. -/
def chainB (G : Graph) : List ℕ → Bool
  | [] => true
  | [_] => true
  | a :: b :: t => decide (edgeRel G a b) && chainB G (b :: t)

/-- Executable duplicate-freeness check. -/
def nodupB : List ℕ → Bool
  | [] => true
  | a :: t => !(t.contains a) && nodupB t

/-- Executable version of `IsSimplePath`. -/
def isSimplePathB (G : Graph) (s t : ℕ) (pa : List ℕ) : Bool :=
  decide (2 ≤ pa.length) && (pa.head? == some s) && (pa.getLast? == some t) &&
    chainB G pa && nodupB pa

/-- All ways to insert `a` into a list. -/
def insertsEverywhere (a : ℕ) : List ℕ → List (List ℕ)
  | [] => [[a]]
  | b :: t => (a :: b :: t) :: (insertsEverywhere a t).map (b :: ·)

/-- All ordered selections (without repetition) from a list: every
duplicate-free list over the elements of `l` occurs here. -/
def orderedSublists : List ℕ → List (List ℕ)
  | [] => [[]]
  | x :: xs =>
    let r := orderedSublists xs
    r ++ r.flatMap (insertsEverywhere x)

/-- All candidate vertex sequences over the node list (every duplicate-free
list of nodes arises as an ordered selection from it). -/
def pathPool (G : Graph) : List (List ℕ) :=
  orderedSublists G.nodes

/-- Embedding of `nx.simple_paths.all_simple_paths(G, s, t)` on a DAG. -/
def allSimplePaths (G : Graph) (s t : ℕ) : List (List ℕ) :=
  (pathPool G).filter (isSimplePathB G s t)

/-- Does `v` lie on some simple path from `c` to `r`? -/
def onSomePath (G : Graph) (c r v : ℕ) : Bool :=
  (allSimplePaths G c r).any (fun pa => decide (v ∈ pa))

/-- Same, looking up the root of the namespace of `c` (false when no root is
configured; the caller checks that case separately). -/
def onSomePathRoot (G : Graph) (c v : ℕ) : Bool :=
  match G.roots (G.nspace c) with
  | some r => onSomePath G c r v
  | none => false

/-- `M = len(df[entry_id].unique())`: number of distinct entry ids. -/
def Mval (rows : List (ℕ × ℕ)) : ℕ := ((rows.map Prod.fst).dedup).length

/-- The distinct category ids of the table, in order of first appearance
(the per-category updates commute, so the grouping order pandas uses does
not affect any state considered here). -/
def cats (rows : List (ℕ × ℕ)) : List ℕ := (rows.map Prod.snd).dedup

/-- The set of entries annotated to category `c`. -/
def entriesOf (rows : List (ℕ × ℕ)) (c : ℕ) : Finset ℕ :=
  ((rows.filter (fun row => row.2 == c)).map Prod.fst).toFinset

/-- One iteration of the `for term, entries in grouped` loop of
`set_background`: look up the namespace root of `c` and union `entriesOf c`
into every node on every simple path from `c` to that root.  A missing graph
node or missing root raises (KeyError in Python). -/
def propagate (G : Graph) (rows : List (ℕ × ℕ)) (st : ℕ → NodeState) (c : ℕ) :
    ((ℕ → NodeState) × Option String) :=
  if c ∈ G.nodes then
    match G.roots (G.nspace c) with
    | some r =>
      (fun v => if onSomePath G c r v then
          { st v with background := some (((st v).background.getD ∅) ∪ entriesOf rows c) }
        else st v, none)
    | none => (st, some "KeyError: root")
  else (st, some "KeyError: term")

/-- Run the category loop, aborting at the first raised error (mutations made
by earlier categories persist). -/
def runCats (G : Graph) (rows : List (ℕ × ℕ)) : List ℕ → (ℕ → NodeState) →
    ((ℕ → NodeState) × Option String)
  | [], st => (st, none)
  | c :: cs, st =>
    match propagate G rows st c with
    | (st', none) => runCats G rows cs st'
    | (st', some e) => (st', some e)

/-- Embedding of `goenrich.enrich.set_background`: reset `background` to the
empty set and `M` to the distinct-entry count on every graph node, then
propagate each category's entries along all simple paths to its namespace
root. -/
def set_background (G : Graph) (rows : List (ℕ × ℕ)) (st : ℕ → NodeState) :
    ((ℕ → NodeState) × Option String) :=
  runCats G rows (cats rows)
    (fun v => if v ∈ G.nodes then
        { st v with background := some ∅, M := some (Mval rows) }
      else st v)

/-- Is category `c` processable without raising (its term is a graph node and
its namespace has a configured root)? -/
def catOk (G : Graph) (c : ℕ) : Bool :=
  decide (c ∈ G.nodes) && (G.roots (G.nspace c)).isSome

/-- Pointwise effect of one category on one node (used to state the
characterisation of `set_background`). -/
def updCat (G : Graph) (rows : List (ℕ × ℕ)) (c v : ℕ) (ns : NodeState) : NodeState :=
  if onSomePathRoot G c v then
    { ns with background := some ((ns.background.getD ∅) ∪ entriesOf rows c) }
  else ns

/-- The error raised by the category loop, if any. -/
def firstCatError (G : Graph) : List ℕ → Option String
  | [] => none
  | c :: cs =>
    if c ∈ G.nodes then
      match G.roots (G.nspace c) with
      | some _ => firstCatError G cs
      | none => some "KeyError: root"
    else some "KeyError: term"

/-- The background set accumulated on node `v` by the categories that got
processed before any abort. -/
def finalBg (G : Graph) (rows : List (ℕ × ℕ)) (v : ℕ) : Finset ℕ :=
  ((cats rows).takeWhile (catOk G)).foldl
    (fun b c => if onSomePathRoot G c v then b ∪ entriesOf rows c else b) ∅

/-- Hypergeometric point mass `P(X = j)` for population size `M`, `n`
successes in the population and `N` draws, in exact rational arithmetic. -/
def hypergeomPMF (M n N j : ℕ) : ℚ :=
  ((n.choose j : ℚ) * ((M - n).choose (N - j) : ℚ)) / (M.choose N : ℚ)

/-- Embedding of `scipy.stats.hypergeom.sf(k, M, n, N)`: the survival
probability `P(X > k)` (one minus the CDF at `k`, exclusive boundary). -/
def hypergeomSF (k M n N : ℕ) : ℚ :=
  (Finset.Icc (k + 1) N).sum (fun j => hypergeomPMF M n N j)

/-- Modelled from the spec: the one-sided upper-tail probability
`P(X ≥ x) = 1 - CDF(x - 1)` that §4.2 of the spec requires for the recorded
p-value.  Kept separate from `hypergeomSF`, which embeds the library call the
source actually makes. -/
def upperTailP (x M n N : ℕ) : ℚ :=
  (Finset.Icc x N).sum (fun j => hypergeomPMF M n N j)

/-- The reset loop at the top of the node iteration of `calculate_pvalues`:
delete all query-related attributes. -/
def resetEphemeral (ns : NodeState) : NodeState :=
  { ns with
    query := none
    n := none
    N := none
    hits := none
    x := none
    p := none
    q := none
    significant := none }

/-- Body of the per-node loop of `calculate_pvalues`.  Returns the new node
state, the p-value recorded for this node (if any) and the exception raised
while processing it (if any).  Thresholds are integers, as in Python. -/
def processNode (query : Finset ℕ) (Nq : ℕ) (minHit minCat maxCat : ℤ)
    (node0 : NodeState) : NodeState × Option ℚ × Option String :=
  let node := resetEphemeral node0
  let background := node.background.getD ∅
  let n := background.card
  if maxCat < (n : ℤ) ∧ (n : ℤ) < minCat then (node, none, none)
  else
    let node := { node with n := some n }
    let hits := query ∩ background
    let x := hits.card
    if (x : ℤ) < minHit then (node, none, none)
    else
      let node := { node with
        query := some query
        N := some Nq
        hits := some hits
        x := some x }
      match node.M with
      | none => (node, none, some "KeyError: M")
      | some M =>
        let pv := hypergeomSF x M n Nq
        ({ node with p := some pv }, some pv, none)

/-- The contribution of one node to the p-value map. -/
def pEntry (i : ℕ) : Option ℚ → List (ℕ × ℚ)
  | some pv => [(i, pv)]
  | none => []

/-- Replace the state of node `i`. -/
def updateNode (st : ℕ → NodeState) (i : ℕ) (ns : NodeState) : ℕ → NodeState :=
  fun j => if j = i then ns else st j

/-- The node loop of `calculate_pvalues`, aborting at the first raised error
(the per-node mutations made up to that point persist). -/
def calcLoop (query : Finset ℕ) (Nq : ℕ) (minHit minCat maxCat : ℤ) :
    List ℕ → (ℕ → NodeState) → List (ℕ × ℚ) →
    ((ℕ → NodeState) × List (ℕ × ℚ) × Option String)
  | [], st, acc => (st, acc, none)
  | i :: rest, st, acc =>
    match processNode query Nq minHit minCat maxCat (st i) with
    | (node', pOpt, none) =>
      calcLoop query Nq minHit minCat maxCat rest (updateNode st i node')
        (acc ++ pEntry i pOpt)
    | (node', _, some e) => (updateNode st i node', acc, some e)

/-- Embedding of `goenrich.enrich.calculate_pvalues` with query collapsed to
a set.  Returns the mutated per-node state, the `term : pvalue` map (as an
association list in node order) and the exception, if one was raised. -/
def calculate_pvalues (G : Graph) (st : ℕ → NodeState) (query : Finset ℕ)
    (minHit minCat maxCat : ℤ) :
    ((ℕ → NodeState) × List (ℕ × ℚ) × Option String) :=
  calcLoop query query.card minHit minCat maxCat G.nodes st []

/-- Benjamini-Hochberg raw corrected values `p_i * n / rank_i` over the
p-sorted list. -/
def bhRawQ (n : ℕ) (sorted : List (ℕ × ℚ)) : List ℚ :=
  sorted.enum.map (fun ip => ip.2.2 * (n : ℚ) / ((ip.1 : ℚ) + 1))

/-- Running minimum from the right (`np.minimum.accumulate` on the reversed
array, reversed back). -/
def bhMono : List ℚ → List ℚ
  | [] => []
  | a :: rest =>
    match bhMono rest with
    | [] => [a]
    | b :: t => min a b :: b :: t

/-- Raw step-up rejection flags `p_i ≤ (rank_i / n) * alpha`. -/
def bhRejectRaw (alpha : ℚ) (n : ℕ) (sorted : List (ℕ × ℚ)) : List Bool :=
  sorted.enum.map (fun ip => decide (ip.2.2 ≤ ((ip.1 : ℚ) + 1) / (n : ℚ) * alpha))

/-- Fill: flag `i` is set when any flag at index `≥ i` is set
(`reject[:rejectmax+1] = True`). -/
def orSuffix : List Bool → List Bool
  | [] => []
  | a :: rest =>
    match orSuffix rest with
    | [] => [a]
    | b :: t => (a || b) :: b :: t

/-- Embedding of `goenrich.enrich.multiple_testing_correction`.  The graph
metadata is updated before the method dispatch, exactly as in the source; the
Bonferroni branch compares `q` against the literal `0.05` of the source, not
against `alpha`; the Benjamini-Hochberg branch on an empty p-value map raises
(`terms, ps = zip(*pvalues.items())` fails to unpack). -/
def multiple_testing_correction (meta : GraphMeta) (st : ℕ → NodeState)
    (pvalues : List (ℕ × ℚ)) (alpha : ℚ) (method : String) :
    ((GraphMeta × (ℕ → NodeState)) × Option String) :=
  let meta' : GraphMeta := { correctionMethod := some method, alpha := some alpha }
  if method = "bonferroni" then
    let n := pvalues.length
    let st' := pvalues.foldl
      (fun s tp => updateNode s tp.1
        { s tp.1 with
          q := some (tp.2 * (n : ℚ))
          significant := some (decide (tp.2 * (n : ℚ) < (5 : ℚ) / 100)) }) st
    ((meta', st'), none)
  else if method = "benjamini-hochberg" then
    match pvalues with
    | [] => ((meta', st), some "ValueError: not enough values to unpack")
    | _ =>
      let n := pvalues.length
      let sorted := pvalues.mergeSort (fun a b => decide (a.2 ≤ b.2))
      let qs := (bhMono (bhRawQ n sorted)).map (fun qv => min qv 1)
      let rejs := orSuffix (bhRejectRaw alpha n sorted)
      let st' := (sorted.zip (qs.zip rejs)).foldl
        (fun s tqr => updateNode s tqr.1.1
          { s tqr.1.1 with q := some tqr.2.1, significant := some tqr.2.2 }) st
      ((meta', st'), none)
  else ((meta', st), some ("ValueError: " ++ method))

/-! ### Concrete instances used by witnesses and counterexamples -/

/-- A state with no attributes anywhere. -/
def blankSt : ℕ → NodeState := fun _ => blankNode

/-- A one-node graph (`calculate_pvalues` and `multiple_testing_correction`
never look at edges or roots). -/
def G1 : Graph := { nodes := [1], edges := [], nspace := fun _ => 0, roots := fun _ => none }

/-- Node 1 carries a propagated background of 6 entries with `M = 6`. -/
def stSix : ℕ → NodeState :=
  fun _ => { blankNode with background := some (Finset.range 6), M := some 6 }

/-- Node 1 carries a propagated background of 3 entries with `M = 6`. -/
def stThree : ℕ → NodeState :=
  fun _ => { blankNode with background := some ({0, 1, 2} : Finset ℕ), M := some 6 }

/-- Node 1 carries a background of 1 entry plus a stale corrected value from
an earlier run. -/
def stOne : ℕ → NodeState :=
  fun _ => { blankNode with background := some ({5} : Finset ℕ), M := some 10, q := some 9 }

/-- Node 1 carries a background of 3 entries (inside the default window)
of which the query hits only one, plus a stale corrected value. -/
def stHitFail : ℕ → NodeState :=
  fun _ => { blankNode with background := some ({5, 6, 7} : Finset ℕ), M := some 10, q := some 9 }

/-- Two namespaces: node 1 (namespace 1, root 2) also has an edge into node 3,
the root of namespace 2.  Every node reaches its own namespace root, but
node 1 additionally reaches the foreign root 3. -/
def Gcross : Graph :=
  { nodes := [1, 2, 3]
    edges := [(1, 2), (1, 3)]
    nspace := fun v => if v = 3 then 2 else 1
    roots := fun m => if m = 1 then some 2 else if m = 2 then some 3 else none }

/-- A single edge 1 → 2 inside one namespace rooted at 2. -/
def Gtwo : Graph :=
  { nodes := [1, 2]
    edges := [(1, 2)]
    nspace := fun _ => 0
    roots := fun m => if m = 0 then some 2 else none }

/-- Two isolated nodes in a namespace rooted at 2: node 1 has no path to the
root. -/
def Gsplit : Graph :=
  { nodes := [1, 2]
    edges := []
    nspace := fun _ => 0
    roots := fun m => if m = 0 then some 2 else none }

/-! ### Path enumeration: soundness and completeness -/

theorem chainB_iff (G : Graph) : ∀ pa : List ℕ, chainB G pa = true ↔ List.Chain' (edgeRel G) pa
  | [] => by simp [chainB]
  | [a] => by simp [chainB]
  | a :: b :: t => by
    rw [List.chain'_cons, chainB, Bool.and_eq_true, decide_eq_true_eq,
      chainB_iff G (b :: t)]

theorem nodupB_iff : ∀ pa : List ℕ, nodupB pa = true ↔ pa.Nodup
  | [] => by simp [nodupB]
  | a :: t => by
    rw [List.nodup_cons, nodupB, Bool.and_eq_true, Bool.not_eq_true',
      ← Bool.not_eq_true, nodupB_iff t]
    constructor
    · rintro ⟨h1, h2⟩
      exact ⟨fun hm => h1 (by simpa [List.contains] using List.elem_iff.mpr hm), h2⟩
    · rintro ⟨h1, h2⟩
      refine ⟨fun hc => h1 ?_, h2⟩
      simpa [List.contains] using List.elem_iff.mp (by simpa [List.contains] using hc)

theorem isSimplePathB_iff (G : Graph) (s t : ℕ) (pa : List ℕ) :
    isSimplePathB G s t pa = true ↔ IsSimplePath G s t pa := by
  rw [isSimplePathB, IsSimplePath]
  simp only [Bool.and_eq_true, decide_eq_true_eq, beq_iff_eq, chainB_iff, nodupB_iff]
  tauto

theorem insertsEverywhere_perm {a : ℕ} :
    ∀ {t q : List ℕ}, q ∈ insertsEverywhere a t → q.Perm (a :: t)
  | [], q, hq => by
    simp [insertsEverywhere] at hq
    simp [hq]
  | b :: t', q, hq => by
    rw [insertsEverywhere, List.mem_cons, List.mem_map] at hq
    rcases hq with h | ⟨q', hq', rfl⟩
    · simp [h]
    · exact ((insertsEverywhere_perm hq').cons b).trans (List.Perm.swap a b t')

theorem insertsEverywhere_self (a : ℕ) :
    ∀ (A B : List ℕ), (A ++ a :: B) ∈ insertsEverywhere a (A ++ B)
  | [], B => by
    cases B <;> simp [insertsEverywhere]
  | c :: A', B => by
    rw [List.cons_append, List.cons_append, insertsEverywhere, List.mem_cons]
    right
    rw [List.mem_map]
    exact ⟨A' ++ a :: B, insertsEverywhere_self a A' B, rfl⟩

theorem orderedSublists_sound :
    ∀ {l q : List ℕ}, q ∈ orderedSublists l → ∀ x ∈ q, x ∈ l
  | [], q, hq => by
    simp [orderedSublists] at hq
    simp [hq]
  | y :: l', q, hq => by
    rw [orderedSublists, List.mem_append, List.mem_flatMap] at hq
    intro x hx
    rcases hq with h | ⟨q', hq', hin⟩
    · exact List.mem_cons_of_mem y (orderedSublists_sound h x hx)
    · have hperm := insertsEverywhere_perm hin
      have : x ∈ y :: q' := hperm.mem_iff.mp hx
      rcases List.mem_cons.mp this with rfl | hxq
      · exact List.mem_cons_self x l'
      · exact List.mem_cons_of_mem y (orderedSublists_sound hq' x hxq)

theorem orderedSublists_complete :
    ∀ {l q : List ℕ}, q.Nodup → (∀ x ∈ q, x ∈ l) → q ∈ orderedSublists l
  | [], q, hnd, hsub => by
    have : q = [] := by
      cases q with
      | nil => rfl
      | cons a t => exact absurd (hsub a (List.mem_cons_self a t)) (List.not_mem_nil a)
    simp [this, orderedSublists]
  | y :: l', q, hnd, hsub => by
    rw [orderedSublists, List.mem_append]
    by_cases hy : y ∈ q
    · right
      obtain ⟨A, B, rfl⟩ := List.append_of_mem hy
      have hmid : (y :: (A ++ B)).Nodup := List.nodup_middle.mp hnd
      have hy' : y ∉ A ++ B := (List.nodup_cons.mp hmid).1
      have hnd' : (A ++ B).Nodup := (List.nodup_cons.mp hmid).2
      rw [List.mem_flatMap]
      refine ⟨A ++ B, orderedSublists_complete hnd' ?_, insertsEverywhere_self y A B⟩
      intro x hx
      have hxq : x ∈ A ++ y :: B := by
        rcases List.mem_append.mp hx with h | h
        · exact List.mem_append.mpr (Or.inl h)
        · exact List.mem_append.mpr (Or.inr (List.mem_cons_of_mem y h))
      rcases List.mem_cons.mp (hsub x hxq) with rfl | h
      · exact absurd hx hy'
      · exact h
    · left
      refine orderedSublists_complete hnd (fun x hx => ?_)
      rcases List.mem_cons.mp (hsub x hx) with rfl | h
      · exact absurd hx hy
      · exact h

theorem allSimplePaths_sound {G : Graph} {s t : ℕ} {pa : List ℕ}
    (h : pa ∈ allSimplePaths G s t) :
    IsSimplePath G s t pa ∧ ∀ x ∈ pa, x ∈ G.nodes := by
  rw [allSimplePaths, List.mem_filter] at h
  exact ⟨(isSimplePathB_iff G s t pa).mp h.2, orderedSublists_sound h.1⟩

theorem allSimplePaths_complete {G : Graph} {s t : ℕ} {pa : List ℕ}
    (h : IsSimplePath G s t pa) (hn : ∀ x ∈ pa, x ∈ G.nodes) :
    pa ∈ allSimplePaths G s t := by
  rw [allSimplePaths, List.mem_filter]
  exact ⟨orderedSublists_complete h.2.2.2.2 hn, (isSimplePathB_iff G s t pa).mpr h⟩

/-! ### Chains and reachability -/

theorem chain'_reach_getLast {G : Graph} :
    ∀ {pa : List ℕ}, List.Chain' (edgeRel G) pa → ∀ {a r : ℕ}, a ∈ pa →
      pa.getLast? = some r → reach G a r
  | [], _, a, r, ha, _ => absurd ha (List.not_mem_nil a)
  | [x], _, a, r, ha, hl => by
    have h1 : a = x := List.mem_singleton.mp ha
    have h2 : x = r := by simpa using hl
    rw [h1, h2]
    exact Relation.ReflTransGen.refl
  | x :: y :: tl, hc, a, r, ha, hl => by
    have hxy : edgeRel G x y := (List.chain'_cons.mp hc).1
    have hc' : List.Chain' (edgeRel G) (y :: tl) := (List.chain'_cons.mp hc).2
    have hl' : (y :: tl).getLast? = some r := by
      simpa [List.getLast?_cons_cons] using hl
    rcases List.mem_cons.mp ha with rfl | ha'
    · exact Relation.ReflTransGen.head hxy
        (chain'_reach_getLast hc' (List.mem_cons_self y tl) hl')
    · exact chain'_reach_getLast hc' ha' hl'

theorem chain'_head_reach {G : Graph} :
    ∀ {pa : List ℕ}, List.Chain' (edgeRel G) pa → ∀ {a b : ℕ},
      pa.head? = some a → b ∈ pa → reach G a b
  | [], _, a, b, _, hb => absurd hb (List.not_mem_nil b)
  | [x], _, a, b, hh, hb => by
    have h1 : a = x := by simpa using hh.symm
    have h2 : b = x := List.mem_singleton.mp hb
    rw [h1, h2]
    exact Relation.ReflTransGen.refl
  | x :: y :: tl, hc, a, b, hh, hb => by
    have hxy : edgeRel G x y := (List.chain'_cons.mp hc).1
    have hc' : List.Chain' (edgeRel G) (y :: tl) := (List.chain'_cons.mp hc).2
    obtain rfl : a = x := by simpa using hh.symm
    rcases List.mem_cons.mp hb with rfl | hb'
    · exact Relation.ReflTransGen.refl
    · exact Relation.ReflTransGen.head hxy (chain'_head_reach hc' rfl hb')

theorem chain_of_reach {G : Graph} {a b : ℕ} (h : reach G a b) :
    ∃ l : List ℕ, List.Chain' (edgeRel G) (a :: l) ∧ (a :: l).getLast? = some b := by
  induction h with
  | refl => exact ⟨[], List.chain'_singleton a, rfl⟩
  | @tail b' c' _ hbc ih =>
    obtain ⟨l, hc, hl⟩ := ih
    refine ⟨l ++ [c'], ?_, ?_⟩
    · rw [show a :: (l ++ [c']) = (a :: l) ++ [c'] from rfl, List.chain'_append]
      refine ⟨hc, List.chain'_singleton c', ?_⟩
      intro u hu w hw
      have h1 : b' = u := Option.mem_some_iff.mp (by rw [hl] at hu; exact hu)
      have h2 : c' = w := Option.mem_some_iff.mp (by simpa using hw)
      rw [← h1, ← h2]
      exact hbc
    · rw [show a :: (l ++ [c']) = (a :: l) ++ [c'] from rfl]
      exact List.getLast?_concat _

theorem acyclic_chain'_nodup {G : Graph} (hA : Acyclic G) :
    ∀ {pa : List ℕ}, List.Chain' (edgeRel G) pa → pa.Nodup
  | [], _ => List.nodup_nil
  | x :: tl, hc => by
    have hc' : List.Chain' (edgeRel G) tl := hc.tail
    rw [List.nodup_cons]
    refine ⟨?_, acyclic_chain'_nodup hA hc'⟩
    intro hx
    cases tl with
    | nil => exact absurd hx (List.not_mem_nil x)
    | cons y tl' =>
      have hxy : edgeRel G x y := (List.chain'_cons.mp hc).1
      have : reach G y x := chain'_head_reach hc' rfl hx
      exact hA x y hxy this

theorem chain'_mem_nodes {G : Graph} (hWF : WF G) :
    ∀ {pa : List ℕ}, List.Chain' (edgeRel G) pa → 2 ≤ pa.length →
      ∀ x ∈ pa, x ∈ G.nodes
  | [], _, hlen, _, _ => by simp at hlen
  | [_], _, hlen, _, _ => by simp at hlen
  | a :: b :: tl, hc, _, x, hx => by
    have hab : edgeRel G a b := (List.chain'_cons.mp hc).1
    have ha : a ∈ G.nodes := (hWF (a, b) hab).1
    have hb : b ∈ G.nodes := (hWF (a, b) hab).2
    rcases List.mem_cons.mp hx with rfl | hx'
    · exact ha
    · cases tl with
      | nil =>
        obtain rfl : x = b := List.mem_singleton.mp hx'
        exact hb
      | cons c tl' =>
        exact chain'_mem_nodes hWF (List.chain'_cons.mp hc).2 (by simp) x hx'

theorem head?_append_cons (A : List ℕ) (v : ℕ) (B C : List ℕ) :
    (A ++ v :: B).head? = (A ++ v :: C).head? := by
  cases A <;> simp

theorem path_extend {G : Graph} (hWF : WF G) (hA : Acyclic G) {c r v w : ℕ}
    {pa : List ℕ} (hp : IsSimplePath G c r pa) (hv : v ∈ pa)
    (he : edgeRel G v w) (hwr : reach G w r) :
    ∃ pb : List ℕ, IsSimplePath G c r pb ∧ w ∈ pb ∧ ∀ x ∈ pb, x ∈ G.nodes := by
  obtain ⟨hlen, hhead, hlast, hchain, hnd⟩ := hp
  obtain ⟨A, B, rfl⟩ := List.append_of_mem hv
  obtain ⟨l, hcl, hll⟩ := chain_of_reach hwr
  have hsplit : A ++ v :: B = (A ++ [v]) ++ B := by simp
  have hchainAv : List.Chain' (edgeRel G) (A ++ [v]) := by
    rw [hsplit] at hchain
    exact (List.chain'_append.mp hchain).1
  have hndAv : (A ++ [v]).Nodup := by
    rw [hsplit] at hnd
    exact (List.nodup_append.mp hnd).1
  have hlastAv : (A ++ [v]).getLast? = some v := List.getLast?_concat A
  have hchainNew : List.Chain' (edgeRel G) ((A ++ [v]) ++ (w :: l)) := by
    rw [List.chain'_append]
    refine ⟨hchainAv, hcl, ?_⟩
    intro u hu z hz
    have h1 : v = u := Option.mem_some_iff.mp (by rw [hlastAv] at hu; exact hu)
    have h2 : w = z := Option.mem_some_iff.mp (by simpa using hz)
    rw [← h1, ← h2]
    exact he
  have hlenNew : 2 ≤ ((A ++ [v]) ++ (w :: l)).length := by
    simp only [List.length_append, List.length_cons, List.length_singleton]
    omega
  refine ⟨(A ++ [v]) ++ (w :: l), ⟨hlenNew, ?_, ?_, hchainNew, ?_⟩, ?_, ?_⟩
  · rw [show (A ++ [v]) ++ (w :: l) = A ++ v :: (w :: l) by simp,
      head?_append_cons A v (w :: l) B]
    exact hhead
  · rw [List.getLast?_append, hll]
    rfl
  · rw [List.nodup_append]
    refine ⟨hndAv, acyclic_chain'_nodup hA hcl, ?_⟩
    intro u hu1 hu2
    have huv : reach G u v := chain'_reach_getLast hchainAv hu1 hlastAv
    have hwu : reach G w u := chain'_head_reach hcl rfl hu2
    exact hA v w he (hwu.trans huv)
  · simp
  · exact chain'_mem_nodes hWF hchainNew hlenNew

/-! ### Characterisation of `set_background` -/

theorem onSomePath_mem_nodes {G : Graph} {c r v : ℕ} (h : onSomePath G c r v = true) :
    v ∈ G.nodes := by
  rw [onSomePath, List.any_eq_true] at h
  obtain ⟨pa, hpa, hv⟩ := h
  exact (allSimplePaths_sound hpa).2 v (of_decide_eq_true hv)

theorem onSomePathRoot_mem_nodes {G : Graph} {c v : ℕ} (h : onSomePathRoot G c v = true) :
    v ∈ G.nodes := by
  rw [onSomePathRoot] at h
  cases hroot : G.roots (G.nspace c) with
  | none => rw [hroot] at h; cases h
  | some r => rw [hroot] at h; exact onSomePath_mem_nodes h

theorem runCats_eq (G : Graph) (rows : List (ℕ × ℕ)) (cs : List ℕ) :
    ∀ st : ℕ → NodeState,
      runCats G rows cs st =
        (fun v => (cs.takeWhile (catOk G)).foldl (fun ns c => updCat G rows c v ns) (st v),
         firstCatError G cs) := by
  induction cs with
  | nil => intro st; rfl
  | cons c cs' ih =>
    intro st
    by_cases hc : c ∈ G.nodes
    · cases hroot : G.roots (G.nspace c) with
      | none =>
        have hbad : catOk G c = false := by simp [catOk, hroot]
        rw [runCats]
        simp only [propagate, if_pos hc, hroot]
        rw [List.takeWhile_cons_of_neg (by simp [hbad]), firstCatError]
        simp [hc, hroot]
      | some r =>
        have hok : catOk G c = true := by simp [catOk, hc, hroot]
        rw [runCats]
        simp only [propagate, if_pos hc, hroot]
        rw [ih, List.takeWhile_cons_of_pos hok, firstCatError]
        simp only [if_pos hc, hroot]
        congr 1
        funext v
        rw [List.foldl_cons]
        congr 1
        rw [updCat, onSomePathRoot, hroot]
    · have hbad : catOk G c = false := by simp [catOk, hc]
      rw [runCats]
      simp only [propagate, if_neg hc]
      rw [List.takeWhile_cons_of_neg (by simp [hbad]), firstCatError]
      simp [hc]

theorem foldl_updCat_shape (G : Graph) (rows : List (ℕ × ℕ)) (v : ℕ) :
    ∀ (l : List ℕ) (base : NodeState) (B : Finset ℕ) (m : ℕ),
      l.foldl (fun ns c => updCat G rows c v ns)
          { base with background := some B, M := some m } =
        { base with
          background := some (l.foldl
            (fun b c => if onSomePathRoot G c v then b ∪ entriesOf rows c else b) B)
          M := some m } := by
  intro l
  induction l with
  | nil => intro base B m; rfl
  | cons c l' ih =>
    intro base B m
    rw [List.foldl_cons, List.foldl_cons]
    by_cases ho : onSomePathRoot G c v = true
    · rw [updCat, if_pos ho, if_pos ho]
      exact ih base (B ∪ entriesOf rows c) m
    · rw [updCat, if_neg ho, if_neg ho]
      exact ih base B m

theorem foldl_updCat_not_node (G : Graph) (rows : List (ℕ × ℕ)) {v : ℕ}
    (hv : v ∉ G.nodes) :
    ∀ (l : List ℕ) (ns : NodeState),
      l.foldl (fun ns c => updCat G rows c v ns) ns = ns := by
  intro l
  induction l with
  | nil => intro ns; rfl
  | cons c l' ih =>
    intro ns
    rw [List.foldl_cons, updCat, if_neg (fun h => hv (onSomePathRoot_mem_nodes h))]
    exact ih ns

theorem set_background_eq (G : Graph) (rows : List (ℕ × ℕ)) (st : ℕ → NodeState) :
    set_background G rows st =
      (fun v => if v ∈ G.nodes then
          { st v with background := some (finalBg G rows v), M := some (Mval rows) }
        else st v,
       firstCatError G (cats rows)) := by
  rw [set_background, runCats_eq]
  congr 1
  funext v
  by_cases hv : v ∈ G.nodes
  · simp only [if_pos hv]
    rw [foldl_updCat_shape]
    rfl
  · simp only [if_neg hv]
    exact foldl_updCat_not_node G rows hv _ (st v)

theorem foldl_bg_mem (G : Graph) (rows : List (ℕ × ℕ)) (v : ℕ) :
    ∀ (l : List ℕ) (B : Finset ℕ) (e : ℕ),
      (e ∈ l.foldl (fun b c => if onSomePathRoot G c v then b ∪ entriesOf rows c else b) B ↔
        e ∈ B ∨ ∃ c ∈ l, onSomePathRoot G c v = true ∧ e ∈ entriesOf rows c) := by
  intro l
  induction l with
  | nil => intro B e; simp
  | cons c l' ih =>
    intro B e
    rw [List.foldl_cons]
    by_cases ho : onSomePathRoot G c v = true
    · rw [if_pos ho, ih]
      simp only [Finset.mem_union, List.mem_cons]
      constructor
      · rintro (⟨h | h⟩ | ⟨c', hc', h1, h2⟩)
        · exact Or.inl h
        · exact Or.inr ⟨c, Or.inl rfl, ho, h⟩
        · exact Or.inr ⟨c', Or.inr hc', h1, h2⟩
      · rintro (h | ⟨c', hc' | hc', h1, h2⟩)
        · exact Or.inl (Or.inl h)
        · subst hc'; exact Or.inl (Or.inr h2)
        · exact Or.inr ⟨c', hc', h1, h2⟩
    · rw [if_neg ho, ih]
      constructor
      · rintro (h | ⟨c', hc', h1, h2⟩)
        · exact Or.inl h
        · exact Or.inr ⟨c', List.mem_cons_of_mem c hc', h1, h2⟩
      · rintro (h | ⟨c', hc', h1, h2⟩)
        · exact Or.inl h
        · rcases List.mem_cons.mp hc' with rfl | hc''
          · exact absurd h1 ho
          · exact Or.inr ⟨c', hc'', h1, h2⟩

theorem finalBg_mem (G : Graph) (rows : List (ℕ × ℕ)) (v e : ℕ) :
    e ∈ finalBg G rows v ↔
      ∃ c ∈ (cats rows).takeWhile (catOk G),
        onSomePathRoot G c v = true ∧ e ∈ entriesOf rows c := by
  rw [finalBg, foldl_bg_mem]
  simp

theorem firstCatError_none_iff (G : Graph) :
    ∀ cs : List ℕ, (firstCatError G cs = none ↔ ∀ c ∈ cs, catOk G c = true)
  | [] => by simp [firstCatError]
  | c :: cs' => by
    by_cases hc : c ∈ G.nodes
    · cases hroot : G.roots (G.nspace c) with
      | none =>
        rw [firstCatError]
        simp [hc, hroot, catOk]
      | some r =>
        rw [firstCatError]
        simp only [if_pos hc, hroot, firstCatError_none_iff G cs', List.mem_cons]
        constructor
        · intro h c' hc'
          rcases hc' with rfl | hc''
          · simp [catOk, hc, hroot]
          · exact h c' hc''
        · intro h c' hc'
          exact h c' (Or.inr hc')
    · rw [firstCatError]
      simp [hc, catOk]

theorem takeWhile_all {p : ℕ → Bool} :
    ∀ {l : List ℕ}, (∀ c ∈ l, p c = true) → l.takeWhile p = l
  | [], _ => rfl
  | c :: l', h => by
    rw [List.takeWhile_cons_of_pos (h c (List.mem_cons_self c l'))]
    rw [takeWhile_all (fun c' hc' => h c' (List.mem_cons_of_mem c hc'))]

/-! ### Characterisation of `calculate_pvalues` -/

theorem mem_pEntry {i j : ℕ} {pv : ℚ} {pOpt : Option ℚ} :
    (i, pv) ∈ pEntry j pOpt ↔ i = j ∧ pOpt = some pv := by
  cases pOpt with
  | none => simp [pEntry]
  | some pv' =>
    simp only [pEntry, List.mem_singleton, Prod.mk.injEq, Option.some.injEq]
    exact ⟨fun h => ⟨h.1, h.2.symm⟩, fun h => ⟨h.1, h.2.symm⟩⟩

theorem calcLoop_untouched (query : Finset ℕ) (Nq : ℕ) (mh mc xc : ℤ) {i : ℕ} :
    ∀ (l : List ℕ) (st : ℕ → NodeState) (acc : List (ℕ × ℚ)), i ∉ l →
      (calcLoop query Nq mh mc xc l st acc).1 i = st i ∧
        ∀ pv : ℚ, ((i, pv) ∈ (calcLoop query Nq mh mc xc l st acc).2.1 ↔ (i, pv) ∈ acc)
  | [], st, acc, _ => ⟨rfl, fun pv => Iff.rfl⟩
  | j :: rest, st, acc, hni => by
    have hij : i ≠ j := fun h => hni (h ▸ List.mem_cons_self j rest)
    have hirest : i ∉ rest := fun h => hni (List.mem_cons_of_mem j h)
    rw [calcLoop]
    split
    · next node' pOpt heq =>
      have hst' : updateNode st j node' i = st i := by simp [updateNode, hij]
      obtain ⟨h1, h2⟩ := calcLoop_untouched query Nq mh mc xc rest
        (updateNode st j node') (acc ++ pEntry j pOpt) hirest
      refine ⟨h1.trans hst', fun pv => (h2 pv).trans ?_⟩
      rw [List.mem_append, mem_pEntry]
      exact ⟨fun h => h.elim id (fun h' => absurd h'.1 hij), Or.inl⟩
    · next node' pOpt e heq =>
      exact ⟨by simp [updateNode, hij], fun pv => Iff.rfl⟩

theorem calcLoop_spec (query : Finset ℕ) (Nq : ℕ) (mh mc xc : ℤ) {i : ℕ} :
    ∀ (l : List ℕ) (st : ℕ → NodeState) (acc : List (ℕ × ℚ)),
      l.Nodup → i ∈ l →
      (calcLoop query Nq mh mc xc l st acc).2.2 = none →
      (calcLoop query Nq mh mc xc l st acc).1 i = (processNode query Nq mh mc xc (st i)).1 ∧
        (processNode query Nq mh mc xc (st i)).2.2 = none ∧
        ∀ pv : ℚ, ((i, pv) ∈ (calcLoop query Nq mh mc xc l st acc).2.1 ↔
          (i, pv) ∈ acc ∨ (processNode query Nq mh mc xc (st i)).2.1 = some pv)
  | [], _, _, _, hi, _ => absurd hi (List.not_mem_nil i)
  | j :: rest, st, acc, hnd, hi, herr => by
    rw [calcLoop] at herr ⊢
    rcases List.mem_cons.mp hi with rfl | hirest
    · have hni : i ∉ rest := (List.nodup_cons.mp hnd).1
      revert herr
      split
      · next node' pOpt heq =>
        intro herr
        have hst' : updateNode st i node' i = node' := by simp [updateNode]
        obtain ⟨h1, h2⟩ := calcLoop_untouched query Nq mh mc xc rest
          (updateNode st i node') (acc ++ pEntry i pOpt) hni
        refine ⟨h1.trans (by rw [hst', heq]), by rw [heq], fun pv => (h2 pv).trans ?_⟩
        rw [List.mem_append, mem_pEntry, heq]
        constructor
        · rintro (h | ⟨-, h⟩)
          · exact Or.inl h
          · exact Or.inr h
        · rintro (h | h)
          · exact Or.inl h
          · exact Or.inr ⟨rfl, h⟩
      · next node' pOpt e heq =>
        intro herr
        cases herr
    · have hij : i ≠ j := fun h => (List.nodup_cons.mp hnd).1 (h ▸ hirest)
      have hnd' : rest.Nodup := (List.nodup_cons.mp hnd).2
      revert herr
      split
      · next node' pOpt heq =>
        intro herr
        have hst' : updateNode st j node' i = st i := by simp [updateNode, hij]
        obtain ⟨h1, h2, h3⟩ := calcLoop_spec query Nq mh mc xc rest
          (updateNode st j node') (acc ++ pEntry j pOpt) hnd' hirest herr
        rw [hst'] at h1 h2 h3
        refine ⟨h1, h2, fun pv => (h3 pv).trans ?_⟩
        have hmem : ((i, pv) ∈ acc ++ pEntry j pOpt ↔ (i, pv) ∈ acc) := by
          rw [List.mem_append, mem_pEntry]
          exact ⟨fun h => h.elim id (fun h' => absurd h'.1 hij), Or.inl⟩
        rw [hmem]
      · next node' pOpt e heq =>
        intro herr
        cases herr

theorem resetEphemeral_background (s : NodeState) :
    (resetEphemeral s).background = s.background := rfl

theorem resetEphemeral_M (s : NodeState) : (resetEphemeral s).M = s.M := rfl

theorem processNode_base (query : Finset ℕ) (Nq : ℕ) (mh mc xc : ℤ) (s : NodeState) :
    (processNode query Nq mh mc xc s).1.background = s.background ∧
      (processNode query Nq mh mc xc s).1.M = s.M ∧
      (processNode query Nq mh mc xc s).1.q = none ∧
      (processNode query Nq mh mc xc s).1.significant = none := by
  rw [processNode]
  dsimp only
  split
  · exact ⟨rfl, rfl, rfl, rfl⟩
  · split
    · exact ⟨rfl, rfl, rfl, rfl⟩
    · split
      · exact ⟨rfl, rfl, rfl, rfl⟩
      · exact ⟨rfl, rfl, rfl, rfl⟩

theorem processNode_some (query : Finset ℕ) (Nq : ℕ) (mh mc xc : ℤ) (s : NodeState)
    (pv : ℚ) (h : (processNode query Nq mh mc xc s).2.1 = some pv) :
    (processNode query Nq mh mc xc s).1.p = some pv ∧
      (processNode query Nq mh mc xc s).1.N = some Nq ∧
      (processNode query Nq mh mc xc s).1.query = some query ∧
      (processNode query Nq mh mc xc s).1.hits = some (query ∩ (s.background.getD ∅)) ∧
      (processNode query Nq mh mc xc s).1.x = some ((query ∩ (s.background.getD ∅)).card) ∧
      (processNode query Nq mh mc xc s).1.n = some ((s.background.getD ∅).card) := by
  rw [processNode] at h ⊢
  dsimp only at h ⊢
  revert h
  split
  · intro h; cases h
  · split
    · intro h; cases h
    · split
      · intro h; cases h
      · intro h
        obtain rfl : _ = pv := Option.some.inj h
        exact ⟨rfl, rfl, rfl, rfl, rfl, rfl⟩

theorem processNode_none (query : Finset ℕ) (Nq : ℕ) (mh mc xc : ℤ) (s : NodeState)
    (h1 : (processNode query Nq mh mc xc s).2.1 = none)
    (h2 : (processNode query Nq mh mc xc s).2.2 = none) :
    (processNode query Nq mh mc xc s).1.p = none ∧
      (processNode query Nq mh mc xc s).1.N = none ∧
      (processNode query Nq mh mc xc s).1.hits = none ∧
      (processNode query Nq mh mc xc s).1.x = none ∧
      (processNode query Nq mh mc xc s).1.query = none := by
  rw [processNode] at h1 h2 ⊢
  dsimp only at h1 h2 ⊢
  revert h1 h2
  split
  · intro _ _; exact ⟨rfl, rfl, rfl, rfl, rfl⟩
  · split
    · intro _ _; exact ⟨rfl, rfl, rfl, rfl, rfl⟩
    · split
      · intro _ h2; cases h2
      · intro h1 _; cases h1

theorem processNode_missing_bg (query : Finset ℕ) (Nq : ℕ) (mh mc xc : ℤ)
    (s : NodeState) (hbg : s.background = none) (hmh : 1 ≤ mh) :
    (processNode query Nq mh mc xc s).2.1 = none ∧
      (processNode query Nq mh mc xc s).2.2 = none ∧
      (processNode query Nq mh mc xc s).1.background = none := by
  have h0 : ((query ∩ (∅ : Finset ℕ)).card : ℤ) < mh := by
    rw [Finset.inter_empty]
    simp only [Finset.card_empty, Nat.cast_zero]
    omega
  rw [processNode]
  dsimp only
  rw [resetEphemeral_background, hbg]
  dsimp only [Option.getD_none]
  split
  · exact ⟨rfl, rfl, hbg⟩
  · exact ⟨rfl, rfl, rfl⟩

/-! ### Auxiliary facts about categories and reachability on concrete graphs -/

theorem reach_no_out {G : Graph} {x y : ℕ} (hno : ∀ z, ¬ edgeRel G x z)
    (h : reach G x y) : y = x := by
  rcases h.cases_head with h1 | ⟨z, hz, _⟩
  · exact h1.symm
  · exact absurd hz (hno z)

theorem mem_cats {rows : List (ℕ × ℕ)} {c : ℕ} :
    c ∈ cats rows ↔ ∃ row ∈ rows, row.2 = c := by
  rw [cats, List.mem_dedup, List.mem_map]

theorem mem_cats_filter {rows : List (ℕ × ℕ)} {c c' : ℕ} :
    c' ∈ cats (rows.filter (fun row => !(row.2 == c))) ↔ c' ∈ cats rows ∧ c' ≠ c := by
  rw [mem_cats, mem_cats]
  constructor
  · rintro ⟨row, hrow, rfl⟩
    rw [List.mem_filter] at hrow
    refine ⟨⟨row, hrow.1, rfl⟩, ?_⟩
    simpa using hrow.2
  · rintro ⟨⟨row, hrow, rfl⟩, hne⟩
    exact ⟨row, List.mem_filter.mpr ⟨hrow, by simpa using hne⟩, rfl⟩

theorem entriesOf_filter {rows : List (ℕ × ℕ)} {c c' : ℕ} (h : c' ≠ c) :
    entriesOf (rows.filter (fun row => !(row.2 == c))) c' = entriesOf rows c' := by
  apply Finset.ext
  intro e
  rw [entriesOf, entriesOf, List.mem_toFinset, List.mem_toFinset, List.mem_map, List.mem_map]
  constructor
  · rintro ⟨row, hrow, rfl⟩
    obtain ⟨hrow1, hcc⟩ := List.mem_filter.mp hrow
    exact ⟨row, List.mem_filter.mpr ⟨(List.mem_filter.mp hrow1).1, hcc⟩, rfl⟩
  · rintro ⟨row, hrow, rfl⟩
    obtain ⟨hrow1, hcc⟩ := List.mem_filter.mp hrow
    have hr : row.2 = c' := by simpa using hcc
    refine ⟨row, List.mem_filter.mpr ⟨List.mem_filter.mpr ⟨hrow1, ?_⟩, hcc⟩, rfl⟩
    simp [hr, h]

/-! ### Claim theorems -/

/-- C8: `set_background` is idempotent per dataset.  Running it a second time
with the same graph and table reproduces the identical result state (every
term's `background` and `M` included) and the identical outcome, with no
accumulation; running it with a different table on the already-propagated
state gives exactly what that table would give on the original state, so the
prior background is fully discarded. -/
theorem set_background_idempotent (G : Graph) (rows rows2 : List (ℕ × ℕ))
    (st : ℕ → NodeState) :
    set_background G rows ((set_background G rows st).1) = set_background G rows st ∧
      set_background G rows2 ((set_background G rows st).1) = set_background G rows2 st := by
  constructor
  · rw [set_background_eq G rows st, set_background_eq]
    congr 1
    funext v
    by_cases hv : v ∈ G.nodes
    · simp only [if_pos hv]
    · simp only [if_neg hv]
  · rw [set_background_eq G rows st, set_background_eq, set_background_eq]
    congr 1
    funext v
    by_cases hv : v ∈ G.nodes
    · simp only [if_pos hv]
    · simp only [if_neg hv]

/-- C4 (amended claim): on a well-formed acyclic graph in which every node
reaches its configured namespace root and reaches no other configured root,
a completed `set_background` leaves, for every edge child → parent,
`background parent ⊇ background child`. -/
theorem background_monotone_amended (G : Graph) (rows : List (ℕ × ℕ))
    (st : ℕ → NodeState) (v w : ℕ)
    (hWF : WF G) (hA : Acyclic G)
    (hRoots : ∀ u ∈ G.nodes, ∃ r, G.roots (G.nspace u) = some r ∧ reach G u r)
    (hOne : ∀ u ∈ G.nodes, ∀ m r, G.roots m = some r → reach G u r →
      G.roots (G.nspace u) = some r)
    (hEdge : (v, w) ∈ G.edges)
    (hOk : (set_background G rows st).2 = none) :
    ((set_background G rows st).1 v).background.getD ∅ ⊆
      ((set_background G rows st).1 w).background.getD ∅ := by
  have hv : v ∈ G.nodes := (hWF (v, w) hEdge).1
  have hw : w ∈ G.nodes := (hWF (v, w) hEdge).2
  rw [set_background_eq] at hOk ⊢
  have hallok : ∀ c ∈ cats rows, catOk G c = true := (firstCatError_none_iff G _).mp hOk
  have htw : (cats rows).takeWhile (catOk G) = cats rows := takeWhile_all hallok
  simp only [if_pos hv, if_pos hw]
  show finalBg G rows v ⊆ finalBg G rows w
  intro e he
  rw [finalBg_mem, htw] at he ⊢
  obtain ⟨c, hc, hon, hent⟩ := he
  rw [onSomePathRoot] at hon
  cases hroot : G.roots (G.nspace c) with
  | none => rw [hroot] at hon; cases hon
  | some rc =>
    rw [hroot] at hon
    dsimp only at hon
    rw [onSomePath, List.any_eq_true] at hon
    obtain ⟨pa, hpa, hvin⟩ := hon
    have hvin' : v ∈ pa := of_decide_eq_true hvin
    obtain ⟨hsp, hpn⟩ := allSimplePaths_sound hpa
    obtain ⟨rw', hrootw, hreachw⟩ := hRoots w hw
    have hvrw : reach G v rw' := Relation.ReflTransGen.head hEdge hreachw
    have h1 : G.roots (G.nspace v) = some rw' := hOne v hv (G.nspace w) rw' hrootw hvrw
    have hvrc : reach G v rc := chain'_reach_getLast hsp.2.2.2.1 hvin' hsp.2.2.1
    have h2 : G.roots (G.nspace v) = some rc := hOne v hv (G.nspace c) rc hroot hvrc
    have hrr : rw' = rc := by
      rw [h1] at h2
      exact Option.some.inj h2
    rw [hrr] at hreachw
    obtain ⟨pb, hpb, hwin, hpbn⟩ := path_extend hWF hA hsp hvin' hEdge hreachw
    refine ⟨c, hc, ?_, hent⟩
    rw [onSomePathRoot, hroot]
    dsimp only
    rw [onSomePath, List.any_eq_true]
    exact ⟨pb, allSimplePaths_complete hpb hpbn, decide_eq_true hwin⟩

/-- C4 (counterexample to the claim as stated): in `Gcross` every term
reaches its own namespace root, the graph is acyclic and well-formed and
`set_background` completes, yet along the DAG edge 1 → 3 the propagated sets
violate `background 3 ⊇ background 1`, because the paths used for
propagation only lead to the root of the annotated term's namespace. -/
theorem background_monotone_counterexample :
    (∀ u ∈ Gcross.nodes, ∃ r, Gcross.roots (Gcross.nspace u) = some r ∧ reach Gcross u r) ∧
      Acyclic Gcross ∧ WF Gcross ∧ (1, 3) ∈ Gcross.edges ∧
      (set_background Gcross [(10, 1)] blankSt).2 = none ∧
      ¬ (((set_background Gcross [(10, 1)] blankSt).1 1).background.getD ∅ ⊆
          ((set_background Gcross [(10, 1)] blankSt).1 3).background.getD ∅) := by
  refine ⟨?_, ?_, by unfold WF; decide, by decide, by decide, by decide⟩
  · intro u hu
    have hu' : u = 1 ∨ u = 2 ∨ u = 3 := by simpa [Gcross] using hu
    rcases hu' with rfl | rfl | rfl
    · exact ⟨2, rfl, Relation.ReflTransGen.single (by decide)⟩
    · exact ⟨2, rfl, Relation.ReflTransGen.refl⟩
    · exact ⟨3, rfl, Relation.ReflTransGen.refl⟩
  · intro a b hab hba
    have hab' : (a = 1 ∧ b = 2) ∨ (a = 1 ∧ b = 3) := by
      simpa [edgeRel, Gcross, Prod.ext_iff] using hab
    have hno2 : ∀ z, ¬ edgeRel Gcross 2 z := by
      intro z hz
      simp [edgeRel, Gcross, Prod.ext_iff] at hz
    have hno3 : ∀ z, ¬ edgeRel Gcross 3 z := by
      intro z hz
      simp [edgeRel, Gcross, Prod.ext_iff] at hz
    rcases hab' with ⟨rfl, rfl⟩ | ⟨rfl, rfl⟩
    · exact absurd (reach_no_out hno2 hba) (by decide)
    · exact absurd (reach_no_out hno3 hba) (by decide)

/-- C4 (witness): on the two-node graph `Gtwo` with its single edge 1 → 2,
the amended theorem applies and yields `background 2 ⊇ background 1`. -/
theorem background_monotone_amended_witness :
    WF Gtwo ∧ Acyclic Gtwo ∧ (1, 2) ∈ Gtwo.edges ∧
      (set_background Gtwo [(7, 1)] blankSt).2 = none ∧
      ((set_background Gtwo [(7, 1)] blankSt).1 1).background.getD ∅ ⊆
        ((set_background Gtwo [(7, 1)] blankSt).1 2).background.getD ∅ := by
  have hWF : WF Gtwo := by unfold WF; decide
  have hA : Acyclic Gtwo := by
    intro a b hab hba
    have hab' : a = 1 ∧ b = 2 := by
      simpa [edgeRel, Gtwo, Prod.ext_iff] using hab
    have hno2 : ∀ z, ¬ edgeRel Gtwo 2 z := by
      intro z hz
      simp [edgeRel, Gtwo, Prod.ext_iff] at hz
    obtain ⟨rfl, rfl⟩ := hab'
    exact absurd (reach_no_out hno2 hba) (by decide)
  have hRoots : ∀ u ∈ Gtwo.nodes, ∃ r, Gtwo.roots (Gtwo.nspace u) = some r ∧ reach Gtwo u r := by
    intro u hu
    have hu' : u = 1 ∨ u = 2 := by simpa [Gtwo] using hu
    rcases hu' with rfl | rfl
    · exact ⟨2, rfl, Relation.ReflTransGen.single (by decide)⟩
    · exact ⟨2, rfl, Relation.ReflTransGen.refl⟩
  have hOne : ∀ u ∈ Gtwo.nodes, ∀ m r, Gtwo.roots m = some r → reach Gtwo u r →
      Gtwo.roots (Gtwo.nspace u) = some r := by
    intro u _ m r hm _
    have : r = 2 := by
      by_cases h : m = 0
      · subst h
        simpa [Gtwo] using hm.symm
      · exact absurd hm (by simp [Gtwo, h])
    subst this
    rfl
  have hsuc : (set_background Gtwo [(7, 1)] blankSt).2 = none := by decide
  exact ⟨hWF, hA, by decide, hsuc,
    background_monotone_amended Gtwo [(7, 1)] blankSt 1 2 hWF hA hRoots hOne (by decide) hsuc⟩

/-- C10: a category whose term exists and whose namespace has a configured
root, but which has no simple path to that root, contributes its entries to
no node's background (not even its own), and the call raises no error:
the result backgrounds are those of the table with that category's rows
removed. -/
theorem unreachable_category_dropped (G : Graph) (rows : List (ℕ × ℕ))
    (st : ℕ → NodeState) (c r : ℕ)
    (hall : ∀ c' ∈ cats rows, catOk G c' = true)
    (hc : c ∈ G.nodes) (hr : G.roots (G.nspace c) = some r)
    (hnopath : ¬ ∃ pa, IsSimplePath G c r pa) :
    (set_background G rows st).2 = none ∧
      ∀ v, ((set_background G rows st).1 v).background =
        ((set_background G (rows.filter (fun row => !(row.2 == c))) st).1 v).background := by
  have hnoon : ∀ v, onSomePathRoot G c v = false := by
    intro v
    rw [onSomePathRoot, hr]
    dsimp only
    cases hon : onSomePath G c r v with
    | false => rfl
    | true =>
      rw [onSomePath, List.any_eq_true] at hon
      obtain ⟨pa, hpa, -⟩ := hon
      exact absurd ⟨pa, (allSimplePaths_sound hpa).1⟩ hnopath
  have hall' : ∀ c' ∈ cats (rows.filter (fun row => !(row.2 == c))), catOk G c' = true :=
    fun c' hc' => hall c' (mem_cats_filter.mp hc').1
  constructor
  · rw [set_background_eq]
    exact (firstCatError_none_iff G _).mpr hall
  · intro v
    rw [set_background_eq, set_background_eq]
    by_cases hv : v ∈ G.nodes
    · simp only [if_pos hv]
      congr 1
      apply Finset.ext
      intro e
      rw [finalBg_mem, finalBg_mem, takeWhile_all hall, takeWhile_all hall']
      constructor
      · rintro ⟨c', hc', hon, hent⟩
        have hne : c' ≠ c := by
          rintro rfl
          rw [hnoon v] at hon
          cases hon
        exact ⟨c', mem_cats_filter.mpr ⟨hc', hne⟩, hon, (entriesOf_filter hne).symm ▸ hent⟩
      · rintro ⟨c', hc', hon, hent⟩
        obtain ⟨hc'', hne⟩ := mem_cats_filter.mp hc'
        exact ⟨c', hc'', hon, (entriesOf_filter hne) ▸ hent⟩
    · simp only [if_neg hv]

/-- C10 (witness): in `Gsplit` (no edges) category 1 cannot reach the root 2;
its annotation (entry 9) lands nowhere and no error is raised. -/
theorem unreachable_category_dropped_witness :
    (set_background Gsplit [(9, 1)] blankSt).2 = none ∧
      ((set_background Gsplit [(9, 1)] blankSt).1 1).background =
        ((set_background Gsplit ([(9, 1)].filter (fun row => !(row.2 == 1))) blankSt).1 1).background ∧
      ((set_background Gsplit [(9, 1)] blankSt).1 2).background =
        ((set_background Gsplit ([(9, 1)].filter (fun row => !(row.2 == 1))) blankSt).1 2).background := by
  have hnopath : ¬ ∃ pa, IsSimplePath Gsplit 1 2 pa := by
    rintro ⟨pa, hlen, hh, hl, hch, hnd⟩
    cases pa with
    | nil => simp at hlen
    | cons a t =>
      cases t with
      | nil => simp at hlen
      | cons b t' =>
        have : edgeRel Gsplit a b := (List.chain'_cons.mp hch).1
        simp [edgeRel, Gsplit] at this
  have h := unreachable_category_dropped Gsplit [(9, 1)] blankSt 1 2
    (by decide) (by decide) rfl hnopath
  exact ⟨h.1, h.2 1, h.2 2⟩

theorem calcLoop_missing_bg_entry (query : Finset ℕ) (Nq : ℕ) (mh mc xc : ℤ)
    (hmh : 1 ≤ mh) {i : ℕ} :
    ∀ (l : List ℕ) (st : ℕ → NodeState) (acc : List (ℕ × ℚ)),
      (st i).background = none →
      ∀ pv : ℚ, ((i, pv) ∈ (calcLoop query Nq mh mc xc l st acc).2.1 ↔ (i, pv) ∈ acc)
  | [], st, acc, _, pv => Iff.rfl
  | j :: rest, st, acc, hbgi, pv => by
    rw [calcLoop]
    split
    · next node' pOpt heq =>
      by_cases hji : j = i
      · obtain ⟨hp1, hp2, hp3⟩ := processNode_missing_bg query Nq mh mc xc (st j)
          (by rw [hji]; exact hbgi) hmh
        have hpq : pOpt = none := by rw [heq] at hp1; exact hp1
        subst hpq
        have hbg' : (updateNode st j node' i).background = none := by
          have hb : node'.background = none := by rw [heq] at hp3; exact hp3
          show (if i = j then node' else st i).background = none
          rw [if_pos hji.symm]
          exact hb
        rw [calcLoop_missing_bg_entry query Nq mh mc xc hmh rest _ _ hbg' pv]
        simp [pEntry]
      · have hij : i ≠ j := fun h => hji h.symm
        have hbg' : (updateNode st j node' i).background = none := by
          show (if i = j then node' else st i).background = none
          rw [if_neg hij]
          exact hbgi
        rw [calcLoop_missing_bg_entry query Nq mh mc xc hmh rest _ _ hbg' pv]
        rw [List.mem_append, mem_pEntry]
        exact ⟨fun h => h.elim id (fun h' => absurd h'.1 hij), Or.inl⟩
    · next node' pOpt e heq => exact Iff.rfl

theorem calcLoop_all_missing (query : Finset ℕ) (Nq : ℕ) (mh mc xc : ℤ)
    (hmh : 1 ≤ mh) :
    ∀ (l : List ℕ) (st : ℕ → NodeState) (acc : List (ℕ × ℚ)),
      (∀ v ∈ l, (st v).background = none) →
      (calcLoop query Nq mh mc xc l st acc).2.1 = acc ∧
        (calcLoop query Nq mh mc xc l st acc).2.2 = none
  | [], st, acc, _ => ⟨rfl, rfl⟩
  | j :: rest, st, acc, hbg => by
    obtain ⟨hp1, hp2, hp3⟩ := processNode_missing_bg query Nq mh mc xc (st j)
      (hbg j (List.mem_cons_self j rest)) hmh
    rw [calcLoop]
    split
    · next node' pOpt heq =>
      have hpq : pOpt = none := by rw [heq] at hp1; exact hp1
      subst hpq
      have hacc : acc ++ pEntry j none = acc := by simp [pEntry]
      rw [hacc]
      refine calcLoop_all_missing query Nq mh mc xc hmh rest _ acc ?_
      intro v hv
      by_cases hvj : v = j
      · subst hvj
        have hb : node'.background = none := by rw [heq] at hp3; exact hp3
        simpa [updateNode] using hb
      · simpa [updateNode, hvj] using hbg v (List.mem_cons_of_mem j hv)
    · next node' pOpt e heq =>
      have : (none : Option String) = some e := by rw [heq] at hp2; exact hp2.symm
      cases this

/-- C1: the category-size filter of `calculate_pvalues` is inverted: the
source tests `max_category_size < n < min_category_size`, which never holds,
so a term whose background size 6 lies outside the configured window [3, 5]
still receives a p-value entry; and under the default thresholds a term with
n = 1 is indeed absent from the map (the hit filter removes it) but still
has the ephemeral field `n` written, contradicting the claimed skip. -/
theorem size_window_not_enforced :
    (calculate_pvalues G1 stSix ({0, 1} : Finset ℕ) 2 3 5).2.1 = [(1, 0)] ∧
      ((5 : ℤ) < 6) ∧
      (calculate_pvalues G1 stOne ({5} : Finset ℕ) 2 3 500).2.1 = [] ∧
      ((calculate_pvalues G1 stOne ({5} : Finset ℕ) 2 3 500).1 1).n = some 1 :=
  ⟨by decide, by decide, by decide, by decide⟩

/-- C2: the recorded p-value is `hypergeom.sf(x, M, n, N) = P(X > x)`, not
the one-sided upper tail `P(X ≥ x) = 1 - CDF(x - 1)` the claim states: for
the retained term with M = 6, n = 3, N = 2, x = 2 the code records 0 while
the specified upper-tail probability is 1/5. -/
theorem tail_convention_off_by_one :
    (calculate_pvalues G1 stThree ({0, 1} : Finset ℕ) 2 3 500).2.1 = [(1, 0)] ∧
      upperTailP 2 6 3 2 = 1 / 5 ∧ ((0 : ℚ) ≠ 1 / 5) := by
  refine ⟨by decide, ?_, by norm_num⟩
  have h : Nat.choose 6 2 = 15 := by decide
  simp [upperTailP, hypergeomPMF, Finset.Icc_self, h]
  norm_num

/-- C6 (counterexample): term 1 has n = 3 (inside the default size window)
but only x = 1 < min_hit_size query hits, so it gets no entry in the p-value
map — yet its final state carries the ephemeral field n = 3, so ephemeral
fields are not confined to terms that passed all filters.  (The stale q from
a previous correction is wiped, as claimed.) -/
theorem ephemeral_fields_counterexample :
    (calculate_pvalues G1 stHitFail ({5} : Finset ℕ) 2 3 500).2.1 = [] ∧
      ((calculate_pvalues G1 stHitFail ({5} : Finset ℕ) 2 3 500).1 1).n = some 3 ∧
      ((calculate_pvalues G1 stHitFail ({5} : Finset ℕ) 2 3 500).1 1).q = none :=
  ⟨by decide, by decide, by decide⟩

/-- C6 (amended): after a completed `calculate_pvalues` call on a
duplicate-free node list, q and significant are absent on every node, the
fields p, N, query, hits, x are present exactly on the terms of the returned
map, and background and M are untouched; the field n, however, may
additionally remain on a term that passed the size window while failing the
min_hit_size filter. -/
theorem ephemeral_fields_amended (G : Graph) (st : ℕ → NodeState) (query : Finset ℕ)
    (mh mc xc : ℤ) (i : ℕ) (hnd : G.nodes.Nodup) (hi : i ∈ G.nodes)
    (herr : (calculate_pvalues G st query mh mc xc).2.2 = none) :
    ((calculate_pvalues G st query mh mc xc).1 i).q = none ∧
      ((calculate_pvalues G st query mh mc xc).1 i).significant = none ∧
      ((calculate_pvalues G st query mh mc xc).1 i).background = (st i).background ∧
      ((calculate_pvalues G st query mh mc xc).1 i).M = (st i).M ∧
      (∀ pv : ℚ, (i, pv) ∈ (calculate_pvalues G st query mh mc xc).2.1 →
        ((calculate_pvalues G st query mh mc xc).1 i).p = some pv ∧
          ((calculate_pvalues G st query mh mc xc).1 i).N = some query.card ∧
          ((calculate_pvalues G st query mh mc xc).1 i).query = some query ∧
          ((calculate_pvalues G st query mh mc xc).1 i).hits ≠ none ∧
          ((calculate_pvalues G st query mh mc xc).1 i).x ≠ none ∧
          ((calculate_pvalues G st query mh mc xc).1 i).n ≠ none) ∧
      ((∀ pv : ℚ, (i, pv) ∉ (calculate_pvalues G st query mh mc xc).2.1) →
        ((calculate_pvalues G st query mh mc xc).1 i).p = none ∧
          ((calculate_pvalues G st query mh mc xc).1 i).N = none ∧
          ((calculate_pvalues G st query mh mc xc).1 i).hits = none ∧
          ((calculate_pvalues G st query mh mc xc).1 i).x = none ∧
          ((calculate_pvalues G st query mh mc xc).1 i).query = none) := by
  rw [calculate_pvalues] at herr ⊢
  obtain ⟨h1, h2, h3⟩ := calcLoop_spec query query.card mh mc xc G.nodes st [] hnd hi herr
  rw [h1]
  obtain ⟨hb1, hb2, hb3, hb4⟩ := processNode_base query query.card mh mc xc (st i)
  refine ⟨hb3, hb4, hb1, hb2, ?_, ?_⟩
  · intro pv hpv
    have hsome : (processNode query query.card mh mc xc (st i)).2.1 = some pv := by
      rcases (h3 pv).mp hpv with h | h
      · exact absurd h (List.not_mem_nil _)
      · exact h
    obtain ⟨g1, g2, g3, g4, g5, g6⟩ := processNode_some query query.card mh mc xc
      (st i) pv hsome
    refine ⟨g1, g2, g3, ?_, ?_, ?_⟩
    · rw [g4]; exact Option.some_ne_none _
    · rw [g5]; exact Option.some_ne_none _
    · rw [g6]; exact Option.some_ne_none _
  · intro hnone
    have hno : (processNode query query.card mh mc xc (st i)).2.1 = none := by
      cases hpn : (processNode query query.card mh mc xc (st i)).2.1 with
      | none => rfl
      | some pv => exact absurd ((h3 pv).mpr (Or.inr hpn)) (hnone pv)
    obtain ⟨g1, g2, g3, g4, g5⟩ := processNode_none query query.card mh mc xc
      (st i) hno h2
    exact ⟨g1, g2, g3, g4, g5⟩

/-- C6 (witness): the amended theorem applied to the one-node graph where
term 1 fails the hit filter; its ephemeral fields p, N, hits, x, query, q and
significant are all absent after the run. -/
theorem ephemeral_fields_amended_witness :
    G1.nodes.Nodup ∧ (1 : ℕ) ∈ G1.nodes ∧
      (calculate_pvalues G1 stHitFail ({5} : Finset ℕ) 2 3 500).2.2 = none ∧
      ((calculate_pvalues G1 stHitFail ({5} : Finset ℕ) 2 3 500).1 1).q = none ∧
      ((calculate_pvalues G1 stHitFail ({5} : Finset ℕ) 2 3 500).1 1).significant = none ∧
      ((calculate_pvalues G1 stHitFail ({5} : Finset ℕ) 2 3 500).1 1).p = none ∧
      ((calculate_pvalues G1 stHitFail ({5} : Finset ℕ) 2 3 500).1 1).N = none ∧
      ((calculate_pvalues G1 stHitFail ({5} : Finset ℕ) 2 3 500).1 1).hits = none ∧
      ((calculate_pvalues G1 stHitFail ({5} : Finset ℕ) 2 3 500).1 1).x = none ∧
      ((calculate_pvalues G1 stHitFail ({5} : Finset ℕ) 2 3 500).1 1).query = none := by
  have h := ephemeral_fields_amended G1 stHitFail ({5} : Finset ℕ) 2 3 500 1
    (by decide) (by decide) (by decide)
  have hmap : (calculate_pvalues G1 stHitFail ({5} : Finset ℕ) 2 3 500).2.1 = [] := by decide
  have hnone := h.2.2.2.2.2 (fun pv hpv => by
    rw [hmap] at hpv
    exact absurd hpv (List.not_mem_nil _))
  exact ⟨by decide, by decide, by decide, h.1, h.2.1, hnone.1, hnone.2.1,
    hnone.2.2.1, hnone.2.2.2.1, hnone.2.2.2.2⟩

/-- C7 (counterexample): with min_hit_size = 0, a term whose node lacks both
background and M (propagation never run) is not filtered out; the code
passes the hit filter with x = 0 and reaches the missing `M` attribute,
raising a KeyError — so "filtered out for every threshold configuration, and
no error is raised" fails. -/
theorem missing_background_counterexample :
    (calculate_pvalues G1 blankSt ({1} : Finset ℕ) 0 3 500).2.2 = some "KeyError: M" := by
  decide

/-- C7 (amended): a term with no background attribute is treated as having
n = 0; whenever min_hit_size ≥ 1 it gets no entry in the returned p-value
map, and when no node of the graph has a background attribute (propagation
never run) the whole call returns an empty map and raises no error. -/
theorem missing_background_amended (G : Graph) (st : ℕ → NodeState) (query : Finset ℕ)
    (mh mc xc : ℤ) (i : ℕ) :
    ((st i).background = none → 1 ≤ mh →
      ∀ pv : ℚ, (i, pv) ∉ (calculate_pvalues G st query mh mc xc).2.1) ∧
      ((∀ v ∈ G.nodes, (st v).background = none) → 1 ≤ mh →
        (calculate_pvalues G st query mh mc xc).2.1 = [] ∧
          (calculate_pvalues G st query mh mc xc).2.2 = none) := by
  constructor
  · intro hbgi hmh pv hmem
    rw [calculate_pvalues] at hmem
    rw [calcLoop_missing_bg_entry query query.card mh mc xc hmh G.nodes st [] hbgi pv] at hmem
    exact absurd hmem (List.not_mem_nil _)
  · intro hall hmh
    rw [calculate_pvalues]
    exact calcLoop_all_missing query query.card mh mc xc hmh G.nodes st [] hall

/-- C7 (witness): the amended theorem applied to a one-node graph whose node
has no attributes at all, with the default min_hit_size = 2. -/
theorem missing_background_amended_witness :
    (blankSt 1).background = none ∧ ((1 : ℤ) ≤ 2) ∧
      ((1 : ℕ), (0 : ℚ)) ∉ (calculate_pvalues G1 blankSt ({1} : Finset ℕ) 2 3 500).2.1 ∧
      (calculate_pvalues G1 blankSt ({1} : Finset ℕ) 2 3 500).2.1 = [] ∧
      (calculate_pvalues G1 blankSt ({1} : Finset ℕ) 2 3 500).2.2 = none := by
  have h := missing_background_amended G1 blankSt ({1} : Finset ℕ) 2 3 500 1
  exact ⟨rfl, by decide, h.1 rfl (by decide) 0,
    (h.2 (by decide) (by decide)).1, (h.2 (by decide) (by decide)).2⟩

/-- C3: under 'bonferroni' with caller alpha = 1/2 and one tested term with
p = 1/10, the code computes q = p × k = 1/10 but flags it NOT significant:
the source compares q against the literal 0.05 instead of the caller's
alpha, although 1/10 < 1/2 (the claim requires significant = (q < alpha),
hence true here). -/
theorem bonferroni_fixed_threshold :
    ((multiple_testing_correction ⟨none, none⟩ blankSt [(1, (1 : ℚ) / 10)]
        ((1 : ℚ) / 2) "bonferroni").1.2 1).q = some ((1 : ℚ) / 10) ∧
      ((multiple_testing_correction ⟨none, none⟩ blankSt [(1, (1 : ℚ) / 10)]
        ((1 : ℚ) / 2) "bonferroni").1.2 1).significant = some false ∧
      ((1 : ℚ) / 10 < (1 : ℚ) / 2) ∧
      (multiple_testing_correction ⟨none, none⟩ blankSt [(1, (1 : ℚ) / 10)]
        ((1 : ℚ) / 2) "bonferroni").2 = none := by
  refine ⟨?_, ?_, by norm_num, by decide⟩ <;>
    norm_num [multiple_testing_correction, updateNode]

/-- C5 (counterexample): calling with the unknown method "foo" raises
ValueError, but the graph-level metadata is not left unchanged: it has
already been updated to the unknown method string and the supplied alpha
before the raise. -/
theorem unknown_method_metadata_counterexample :
    (multiple_testing_correction ⟨none, none⟩ blankSt [] ((1 : ℚ) / 20) "foo").2 =
        some "ValueError: foo" ∧
      (multiple_testing_correction ⟨none, none⟩ blankSt [] ((1 : ℚ) / 20)
          "foo").1.1.correctionMethod = some "foo" ∧
      (multiple_testing_correction ⟨none, none⟩ blankSt [] ((1 : ℚ) / 20)
          "foo").1.1.correctionMethod ≠ (⟨none, none⟩ : GraphMeta).correctionMethod :=
  ⟨by decide, by decide, by decide⟩

/-- C5 (amended): for every method other than 'bonferroni' and
'benjamini-hochberg', `multiple_testing_correction` raises
`ValueError(method)` and leaves every per-term field unchanged, but the
graph-level metadata is updated to {method, alpha} before the raise. -/
theorem unknown_method_amended (meta : GraphMeta) (st : ℕ → NodeState)
    (pvalues : List (ℕ × ℚ)) (alpha : ℚ) (method : String)
    (h1 : method ≠ "bonferroni") (h2 : method ≠ "benjamini-hochberg") :
    multiple_testing_correction meta st pvalues alpha method =
      ((⟨some method, some alpha⟩, st), some ("ValueError: " ++ method)) := by
  cases pvalues with
  | nil =>
    rw [multiple_testing_correction]
    rw [if_neg h1, if_neg h2]
  | cons a t =>
    rw [multiple_testing_correction]
    · rw [if_neg h1, if_neg h2]
    · intro h
      cases h

/-- C5 (witness): the amended theorem evaluated at the concrete unknown
method "foo". -/
theorem unknown_method_amended_witness :
    multiple_testing_correction ⟨none, none⟩ blankSt [(1, (1 : ℚ) / 10)]
        ((1 : ℚ) / 20) "foo" =
      ((⟨some "foo", some ((1 : ℚ) / 20)⟩, blankSt), some ("ValueError: " ++ "foo")) :=
  unknown_method_amended ⟨none, none⟩ blankSt [(1, (1 : ℚ) / 10)] ((1 : ℚ) / 20) "foo"
    (by decide) (by decide)

/-- C9: on an empty p-value map, the default method 'benjamini-hochberg'
raises (`terms, ps = zip(*pvalues.items())` fails to unpack an empty
sequence) while 'bonferroni' completes without error. -/
theorem empty_pvalues_bh_raises (meta : GraphMeta) (st : ℕ → NodeState) (alpha : ℚ) :
    (multiple_testing_correction meta st [] alpha "benjamini-hochberg").2 =
        some "ValueError: not enough values to unpack" ∧
      (multiple_testing_correction meta st [] alpha "bonferroni").2 = none := by
  constructor
  · rw [multiple_testing_correction]
    rw [if_neg (by decide : ¬ ("benjamini-hochberg" = "bonferroni")), if_pos rfl]
  · rw [multiple_testing_correction, if_pos rfl]
